import Mathlib

/-!
Verification of the SEC1 point-encoding / public-key layer of the
`elliptic-curve` crate (`src/elliptic-curve/src/public_key.rs`).

The `PublicKey` wrapper itself is embedded directly from the source file.
The SEC1 layer it delegates to (`EncodedPoint::from_bytes`,
`AffinePoint::from_encoded_point` / `to_encoded_point`,
`EncodedPoint::decode`) lives in other files of the repository (the `sec1`
module and per-curve arithmetic crates) and is modelled from the spec, as
indicated by the doc comments below.

All arithmetic is over `Nat`; field elements are naturals reduced modulo
the curve prime `p`, and byte strings are `List Nat` with big-endian
fixed-width coordinate serialization of length `N` bytes.
-/

/-- Curve parameterization: the field prime `p`, the short-Weierstrass
coefficients `a`, `b`, the field byte length `N`, and the curve's
compile-time default compression preference (`C::COMPRESS_POINTS`). -/
structure Curve where
  p : Nat
  a : Nat
  b : Nat
  N : Nat
  compressPoints : Bool

/-- A point in affine form: the distinguished identity, or a coordinate
pair `(x, y)` of field elements. -/
inductive AffinePoint where
  | identity : AffinePoint
  | affine (x y : Nat) : AffinePoint
deriving DecidableEq, Repr

/-- The single opaque error surfaced at the `PublicKey` boundary
(`crate::Error`, a unit struct). -/
inductive Error where
  | error : Error
deriving DecidableEq, Repr

/-- Internal structural decode failures of the `EncodedPoint` layer
(spec §7: `InvalidLength`, `InvalidTag`); never surfaced past the
`PublicKey` boundary. -/
inductive DecodeError where
  | invalidLength : DecodeError
  | invalidTag : DecodeError
deriving DecidableEq, Repr

/-- Big-endian interpretation of a byte string as a natural number. -/
def bytesToNat (bs : List Nat) : Nat :=
  bs.foldl (fun acc b => acc * 256 + b) 0

/-- Big-endian fixed-width (`len` bytes) serialization of a natural
number. -/
def natToBytes (len n : Nat) : List Nat :=
  match len with
  | 0 => []
  | l + 1 => natToBytes l (n / 256) ++ [n % 256]

/-- The short-Weierstrass curve equation check
`y² ≡ x³ + a·x + b (mod p)`. -/
def onCurve (C : Curve) (x y : Nat) : Bool :=
  (y * y) % C.p = (x * x * x + C.a * x + C.b) % C.p

/-- Modelled from the spec: the decompression step of
`AffinePoint::from_encoded_point` (§4.2), which is implemented in the
per-curve arithmetic crates, not under `src/`. Given `x` and the desired
parity bit, deterministically select the modular square root of
`x³ + a·x + b` whose least-significant bit matches the parity bit;
`none` when no square root exists or no root has the requested parity. -/
def decompressY (C : Curve) (x : Nat) (parity : Nat) : Option Nat :=
  (List.range C.p).find?
    (fun y => (y * y) % C.p = (x * x * x + C.a * x + C.b) % C.p && y % 2 = parity)

/-- Modelled from the spec: `EncodedPoint::from_bytes` (§4.1), implemented
in the repository's `sec1` module, not under `src/`. Accepts a byte
sequence only when the leading tag byte is one of
`{0x00, 0x02, 0x03, 0x04}` and the total length matches the tag
(`1`, `1+N`, `1+N`, `1+2N` respectively); returns the byte sequence
unchanged on success. -/
def EncodedPoint.from_bytes (C : Curve) (buf : List Nat) :
    Except DecodeError (List Nat) :=
  match buf with
  | [] => .error .invalidLength
  | tag :: body =>
    if tag = 0x00 then
      if body = [] then .ok buf else .error .invalidLength
    else if tag = 0x02 || tag = 0x03 then
      if body.length = C.N then .ok buf else .error .invalidLength
    else if tag = 0x04 then
      if body.length = 2 * C.N then .ok buf else .error .invalidLength
    else .error .invalidTag

/-- Modelled from the spec: `AffinePoint::from_encoded_point` (§4.2),
implemented in the per-curve arithmetic crates, not under `src/`.
Tag `0x00` yields the identity; tag `0x04` parses `x ‖ y`, requires both
coordinates `< p` and the curve equation to hold; tags `0x02`/`0x03`
parse `x < p` and decompress `y` with the tag's low bit as parity.
Every failure yields `none`. -/
def AffinePoint.from_encoded_point (C : Curve) (e : List Nat) :
    Option AffinePoint :=
  match e with
  | [] => none
  | tag :: body =>
    if tag = 0x00 then
      if body = [] then some .identity else none
    else if tag = 0x02 || tag = 0x03 then
      if body.length = C.N then
        let x := bytesToNat body
        if x < C.p then
          match decompressY C x (tag % 2) with
          | some y => some (.affine x y)
          | none => none
        else none
      else none
    else if tag = 0x04 then
      if body.length = 2 * C.N then
        let x := bytesToNat (body.take C.N)
        let y := bytesToNat (body.drop C.N)
        if x < C.p ∧ y < C.p ∧ onCurve C x y then some (.affine x y)
        else none
      else none
    else none

/-- Modelled from the spec: `AffinePoint::to_encoded_point` /
`EncodedPoint::from_affine_coordinates` (§4.1 `fromPoint`), implemented in
the `sec1` module and curve crates, not under `src/`. The identity encodes
as the single byte `0x00` regardless of `compress`; otherwise tag
`0x02 | parity(y)` followed by `x` when compressing, or tag `0x04`
followed by `x ‖ y` when not. -/
def AffinePoint.to_encoded_point (C : Curve) (pt : AffinePoint)
    (compress : Bool) : List Nat :=
  match pt with
  | .identity => [0x00]
  | .affine x y =>
    if compress then (0x02 + y % 2) :: natToBytes C.N x
    else 0x04 :: (natToBytes C.N x ++ natToBytes C.N y)

/-- Rust `PublicKey<C>`: a thin wrapper holding exactly one `AffinePoint`
(`public_key.rs`, lines 24-35). -/
structure PublicKey where
  point : AffinePoint
deriving DecidableEq, Repr

/-- Impl `FromEncodedPoint for PublicKey` (`public_key.rs`, lines 172-174):
decode the affine point and wrap it. -/
def PublicKey.from_encoded_point (C : Curve) (e : List Nat) :
    Option PublicKey :=
  (AffinePoint.from_encoded_point C e).map fun point => { point }

/-- Impl `ToEncodedPoint for PublicKey` (`public_key.rs`, lines 189-191):
serialize the wrapped point, optionally compressing. -/
def PublicKey.to_encoded_point (C : Curve) (k : PublicKey)
    (compress : Bool) : List Nat :=
  AffinePoint.to_encoded_point C k.point compress

/-- Modelled from the spec: `EncodedPoint::decode` (the `sec1` module, not
under `src/`), which the source's `TryFrom` impls delegate to:
`T::from_encoded_point(self).ok_or(Error)`, collapsing the semantic
failure into the single opaque `Error` (§7). -/
def EncodedPoint.decode (C : Curve) (e : List Nat) :
    Except Error PublicKey :=
  match PublicKey.from_encoded_point C e with
  | some k => .ok k
  | none => .error .error

/-- Impl `TryFrom<EncodedPoint<C>> for PublicKey` (`public_key.rs`,
lines 109-111): `encoded_point.decode()`. -/
def PublicKey.try_from (C : Curve) (e : List Nat) :
    Except Error PublicKey :=
  EncodedPoint.decode C e

/-- Impl `TryFrom<&EncodedPoint<C>> for PublicKey` (`public_key.rs`,
lines 126-128): `encoded_point.decode()`. -/
def PublicKey.try_from_ref (C : Curve) (e : List Nat) :
    Except Error PublicKey :=
  EncodedPoint.decode C e

/-- Rust `PublicKey::new` (`public_key.rs`, lines 48-52):
`EncodedPoint::from_bytes(bytes).map_err(|_| Error).and_then(TryInto::try_into)`. -/
def PublicKey.new (C : Curve) (bytes : List Nat) :
    Except Error PublicKey :=
  ((EncodedPoint.from_bytes C bytes).mapError fun _ => Error.error).bind
    (PublicKey.try_from C)

/-- Rust `PublicKey::from_affine` (`public_key.rs`, lines 55-57): wrap the
point with no validation. -/
def PublicKey.from_affine (point : AffinePoint) : PublicKey :=
  { point }

/-- Impl `AsRef<AffinePoint<C>> for PublicKey` (`public_key.rs`,
lines 75-77). -/
def PublicKey.as_ref (k : PublicKey) : AffinePoint :=
  k.point

/-- Impl `Deref for PublicKey` (`public_key.rs`, lines 92-94). -/
def PublicKey.deref (k : PublicKey) : AffinePoint :=
  k.point

/-- Impl `From<&PublicKey<C>> for EncodedPoint<C>` (`public_key.rs`,
lines 156-158): `public_key.to_encoded_point(C::COMPRESS_POINTS)`. -/
def EncodedPoint.from_public_key_ref (C : Curve) (k : PublicKey) :
    List Nat :=
  PublicKey.to_encoded_point C k C.compressPoints

/-- Impl `From<PublicKey<C>> for EncodedPoint<C>` (`public_key.rs`,
lines 141-143): delegates to the by-reference conversion. -/
def EncodedPoint.from_public_key (C : Curve) (k : PublicKey) :
    List Nat :=
  EncodedPoint.from_public_key_ref C k

/-- Validity of an affine point for a curve: the identity, or an on-curve
coordinate pair with both coordinates reduced modulo `p` (spec §3). -/
def AffinePoint.valid (C : Curve) : AffinePoint → Prop
  | .identity => True
  | .affine x y => x < C.p ∧ y < C.p ∧ onCurve C x y = true

/-- Toy curve from spec §8 scenario 6: `p = 23`, `a = 1`, `b = 0`
(`y² = x³ + x`), one coordinate byte. -/
def toyCurve : Curve :=
  { p := 23, a := 1, b := 0, N := 1, compressPoints := true }

deriving instance DecidableEq for Except

/-- Helper: a fixed-width serialization has exactly its requested
length. -/
theorem natToBytes_length (len n : Nat) : (natToBytes len n).length = len := by
  induction len generalizing n with
  | zero => rfl
  | succ l ih => simp [natToBytes, ih]

/-- Helper: a structural decode failure makes `PublicKey::new` return the
opaque error. -/
theorem new_error_of_from_bytes_error (C : Curve) (buf : List Nat)
    (d : DecodeError) (h : EncodedPoint.from_bytes C buf = .error d) :
    PublicKey.new C buf = .error .error := by
  unfold PublicKey.new
  rw [h]
  rfl

/-- Helper: a byte sequence accepted by `EncodedPoint::from_bytes` has one
of the three valid total lengths. -/
theorem from_bytes_ok_length (C : Curve) (buf e : List Nat)
    (h : EncodedPoint.from_bytes C buf = .ok e) :
    buf.length = 1 ∨ buf.length = 1 + C.N ∨ buf.length = 1 + 2 * C.N := by
  match buf with
  | [] => simp [EncodedPoint.from_bytes] at h
  | tag :: body =>
    simp only [EncodedPoint.from_bytes] at h
    by_cases h0 : tag = 0x00
    · simp only [h0, if_true] at h
      by_cases hb : body = ([] : List Nat)
      · left; simp [hb]
      · simp [hb] at h
    · simp only [h0, if_false] at h
      by_cases h23 : tag = 0x02 ∨ tag = 0x03
      · have : (tag = 0x02 || tag = 0x03) = true := by
          rcases h23 with h2 | h3
          · simp [h2]
          · simp [h3]
        simp only [this, if_true] at h
        by_cases hlen : body.length = C.N
        · right; left; simp [List.length_cons, hlen, Nat.add_comm]
        · simp [hlen] at h
      · have : (tag = 0x02 || tag = 0x03) = false := by
          simp only [Bool.or_eq_false_iff, decide_eq_false_iff_not]
          exact ⟨fun h2 => h23 (Or.inl h2), fun h3 => h23 (Or.inr h3)⟩
        simp only [this, if_false] at h
        by_cases h4 : tag = 0x04
        · simp only [h4, if_true] at h
          by_cases hlen : body.length = 2 * C.N
          · right; right; simp [List.length_cons, hlen, Nat.add_comm]
          · simp [hlen] at h
        · simp [h4] at h

/-- C1: `PublicKey::new` is exactly `EncodedPoint::from_bytes` followed by
the `EncodedPoint`-to-`AffinePoint` conversion; every failure of either
step is returned as the single opaque `Error` value (which cannot
distinguish causes, being a subsingleton), never aborting. -/
theorem new_is_parse_then_convert_with_opaque_error (C : Curve)
    (bytes : List Nat) :
    (PublicKey.new C bytes =
      match EncodedPoint.from_bytes C bytes with
      | .ok e =>
        match AffinePoint.from_encoded_point C e with
        | some pt => .ok { point := pt }
        | none => .error Error.error
      | .error _ => .error Error.error) ∧
    ∀ e1 e2 : Error, e1 = e2 := by
  constructor
  · unfold PublicKey.new PublicKey.try_from EncodedPoint.decode
      PublicKey.from_encoded_point
    cases hfb : EncodedPoint.from_bytes C bytes with
    | error d => rfl
    | ok e =>
      cases hfe : AffinePoint.from_encoded_point C e <;>
        simp [Except.mapError, Except.bind, hfe]
  · intro e1 e2
    cases e1; cases e2; rfl

/-- C3: decoding through `PublicKey::new` rejects every byte sequence with
a tag outside `{0x00, 0x02, 0x03, 0x04}` regardless of the remaining
bytes, every byte sequence whose total length is not in
`{1, 1+N, 1+2N}`, and every sequence with identity tag `0x00` followed by
a non-empty body. -/
theorem new_rejects_bad_tag_length_and_identity_body (C : Curve)
    (buf : List Nat) :
    (∀ tag rest, buf = tag :: rest →
      tag ≠ 0x00 → tag ≠ 0x02 → tag ≠ 0x03 → tag ≠ 0x04 →
      PublicKey.new C buf = .error .error) ∧
    (buf.length ≠ 1 → buf.length ≠ 1 + C.N → buf.length ≠ 1 + 2 * C.N →
      PublicKey.new C buf = .error .error) ∧
    (∀ rest, buf = 0x00 :: rest → rest ≠ [] →
      PublicKey.new C buf = .error .error) := by
  refine ⟨?_, ?_, ?_⟩
  · intro tag rest hbuf h0 h2 h3 h4
    subst hbuf
    apply new_error_of_from_bytes_error C _ DecodeError.invalidTag
    simp [EncodedPoint.from_bytes, h0, h2, h3, h4]
  · intro h1 hN h2N
    cases hfb : EncodedPoint.from_bytes C buf with
    | error d => exact new_error_of_from_bytes_error C buf d hfb
    | ok e =>
      rcases from_bytes_ok_length C buf e hfb with h | h | h
      · exact absurd h h1
      · exact absurd h hN
      · exact absurd h h2N
  · intro rest hbuf hne
    subst hbuf
    apply new_error_of_from_bytes_error C _ DecodeError.invalidLength
    simp [EncodedPoint.from_bytes, hne]

/-- Witness for C3 on the toy curve: tag `0x05` rejected, bad length
rejected, identity tag with trailing byte rejected. -/
theorem new_rejects_bad_tag_length_and_identity_body_witness :
    PublicKey.new toyCurve [0x05, 0x01] = .error .error ∧
    PublicKey.new toyCurve [0x04, 0x01, 0x01, 0x01] = .error .error ∧
    PublicKey.new toyCurve [0x00, 0xFF] = .error .error :=
  ⟨(new_rejects_bad_tag_length_and_identity_body toyCurve [0x05, 0x01]).1
      0x05 [0x01] rfl (by decide) (by decide) (by decide) (by decide),
   (new_rejects_bad_tag_length_and_identity_body toyCurve
      [0x04, 0x01, 0x01, 0x01]).2.1 (by decide) (by decide) (by decide),
   (new_rejects_bad_tag_length_and_identity_body toyCurve
      [0x00, 0xFF]).2.2 [0xFF] rfl (by decide)⟩

/-- C5: the compressed encoding of a non-identity key has exactly `1 + N`
bytes, the uncompressed encoding `1 + 2N` bytes, and the identity encodes
in exactly one byte for either compression choice. -/
theorem to_encoded_point_lengths (C : Curve) (k : PublicKey) :
    (k.point ≠ .identity →
      (PublicKey.to_encoded_point C k true).length = 1 + C.N ∧
      (PublicKey.to_encoded_point C k false).length = 1 + 2 * C.N) ∧
    (k.point = .identity →
      ∀ compress, (PublicKey.to_encoded_point C k compress).length = 1) := by
  constructor
  · intro hne
    cases hpt : k.point with
    | identity => exact absurd hpt hne
    | affine x y =>
      unfold PublicKey.to_encoded_point AffinePoint.to_encoded_point
      rw [hpt]
      constructor
      · simp [natToBytes_length, Nat.add_comm]
      · simp [natToBytes_length]
        omega
  · intro hid compress
    unfold PublicKey.to_encoded_point AffinePoint.to_encoded_point
    rw [hid]
    rfl

/-- Witness for C5 on the toy curve at point `(1, 5)` and the identity. -/
theorem to_encoded_point_lengths_witness :
    ((PublicKey.to_encoded_point toyCurve { point := .affine 1 5 } true).length
        = 1 + toyCurve.N ∧
      (PublicKey.to_encoded_point toyCurve { point := .affine 1 5 } false).length
        = 1 + 2 * toyCurve.N) ∧
    (PublicKey.to_encoded_point toyCurve { point := .identity } true).length = 1 :=
  ⟨(to_encoded_point_lengths toyCurve { point := .affine 1 5 }).1 (by decide),
   (to_encoded_point_lengths toyCurve { point := .identity }).2 rfl true⟩

/-- C6: encoding the identity yields the single byte `0x00` for either
compression choice, and decoding `[0x00]` yields the identity, at both the
affine and the public-key level. -/
theorem identity_encoding_roundtrip (C : Curve) (compress : Bool) :
    AffinePoint.to_encoded_point C .identity compress = [0x00] ∧
    AffinePoint.from_encoded_point C [0x00] = some .identity ∧
    PublicKey.from_encoded_point C [0x00] = some { point := .identity } := by
  refine ⟨rfl, rfl, rfl⟩

/-- C7: `PublicKey::from_affine` always succeeds for any affine point,
validated or not, and both the `AsRef` and `Deref` views return exactly
the wrapped point unchanged. -/
theorem from_affine_is_unvalidated_inverse_of_views (pt : AffinePoint) :
    (PublicKey.from_affine pt).as_ref = pt ∧
    (PublicKey.from_affine pt).deref = pt :=
  ⟨rfl, rfl⟩

/-- C8: both `TryFrom` impls agree with `from_encoded_point`: success with
key `k` exactly when `from_encoded_point` yields `some k`, and the opaque
error exactly when it yields `none`. -/
theorem try_from_agrees_with_from_encoded_point (C : Curve)
    (e : List Nat) :
    (∀ k, PublicKey.try_from C e = .ok k ↔
      PublicKey.from_encoded_point C e = some k) ∧
    (PublicKey.try_from C e = .error .error ↔
      PublicKey.from_encoded_point C e = none) ∧
    PublicKey.try_from_ref C e = PublicKey.try_from C e := by
  refine ⟨?_, ?_, rfl⟩
  · intro k
    unfold PublicKey.try_from EncodedPoint.decode
    cases hfe : PublicKey.from_encoded_point C e <;> simp
  · unfold PublicKey.try_from EncodedPoint.decode
    cases hfe : PublicKey.from_encoded_point C e <;> simp

/-- C9: the argumentless conversions from a public key (by value and by
reference) to an encoded point both equal `to_encoded_point` applied at
the curve's compile-time default compression preference. -/
theorem from_public_key_uses_default_compression (C : Curve)
    (k : PublicKey) :
    EncodedPoint.from_public_key_ref C k =
      PublicKey.to_encoded_point C k C.compressPoints ∧
    EncodedPoint.from_public_key C k =
      PublicKey.to_encoded_point C k C.compressPoints :=
  ⟨rfl, rfl⟩

/-- C10: `PublicKey::new` does not reject the identity: the one-byte input
`[0x00]` decodes successfully to the key wrapping the identity point. -/
theorem new_accepts_identity (C : Curve) :
    PublicKey.new C [0x00] = .ok { point := .identity } := rfl

/-- Helper: decoding a big-endian fixed-width serialization recovers the
value whenever it fits in the width. -/
theorem bytesToNat_natToBytes (len n : Nat) (h : n < 256 ^ len) :
    bytesToNat (natToBytes len n) = n := by
  induction len generalizing n with
  | zero =>
    have : n = 0 := by simpa using h
    subst this
    rfl
  | succ l ih =>
    have hdiv : n / 256 < 256 ^ l := by
      rw [Nat.div_lt_iff_lt_mul (by norm_num)]
      rw [pow_succ] at h
      exact h
    show bytesToNat (natToBytes l (n / 256) ++ [n % 256]) = n
    unfold bytesToNat
    rw [List.foldl_append]
    show bytesToNat (natToBytes l (n / 256)) * 256 + n % 256 = n
    rw [ih _ hdiv]
    omega

/-- Helper: the mirrored value `p - y` has the same square modulo `p`. -/
theorem neg_root_sq_mod (p y : Nat) (hy : y ≤ p) :
    ((p - y) * (p - y)) % p = (y * y) % p := by
  have hsum : y + (p - y) = p := by omega
  have key : y * y + (p - y) * (y + (p - y)) =
      (p - y) * (p - y) + y * (y + (p - y)) := by ring
  rw [hsum] at key
  calc ((p - y) * (p - y)) % p
      = ((p - y) * (p - y) + y * p) % p :=
        (Nat.add_mul_mod_self_right _ _ _).symm
    _ = (y * y + (p - y) * p) % p := by rw [← key]
    _ = (y * y) % p := Nat.add_mul_mod_self_right _ _ _

/-- Helper for the root-uniqueness argument, with the roots ordered. -/
theorem sq_mod_eq_cases_aux (p : Nat) (hp : Nat.Prime p) (z y : Nat)
    (hzp : z < p) (hyp : y < p) (h : z * z % p = y * y % p) (hle : y ≤ z) :
    z = y ∨ z + y = p := by
  obtain ⟨d, rfl⟩ : ∃ d, z = y + d := ⟨z - y, by omega⟩
  have hmul : y * y ≤ (y + d) * (y + d) :=
    Nat.mul_le_mul (by omega) (by omega)
  have hdvd : p ∣ (y + d) * (y + d) - y * y :=
    (Nat.modEq_iff_dvd' hmul).mp h.symm
  have expand : (y + d) * (y + d) - y * y = (y + d + y) * d := by
    have hh : (y + d) * (y + d) = y * y + (y + d + y) * d := by ring
    omega
  rw [expand] at hdvd
  rcases (hp.dvd_mul).mp hdvd with hs | hd
  · rcases Nat.eq_zero_or_pos (y + d + y) with h0 | hpos
    · left; omega
    · obtain ⟨k, hk⟩ := hs
      have hk2 : k < 2 := by
        by_contra hc
        push_neg at hc
        have : p * 2 ≤ p * k := Nat.mul_le_mul_left p hc
        omega
      have hk0 : k ≠ 0 := by
        rintro rfl
        omega
      have hk1 : k = 1 := by omega
      right
      rw [hk1, Nat.mul_one] at hk
      omega
  · rcases Nat.eq_zero_or_pos d with h0 | hpos
    · left; omega
    · have := Nat.le_of_dvd hpos hd
      omega

/-- Helper: modulo a prime, two reduced square roots of the same value are
equal or sum to `p`. -/
theorem sq_mod_eq_cases (p : Nat) (hp : Nat.Prime p) (z y : Nat)
    (hzp : z < p) (hyp : y < p) (h : z * z % p = y * y % p) :
    z = y ∨ z + y = p := by
  rcases Nat.le_total y z with hle | hle
  · exact sq_mod_eq_cases_aux p hp z y hzp hyp h hle
  · rcases sq_mod_eq_cases_aux p hp y z hyp hzp h.symm hle with h1 | h1
    · exact Or.inl h1.symm
    · exact Or.inr (by omega)

/-- Helper: over an odd prime field, `decompressY` returns exactly the
reduced root of the curve cubic whose parity matches the target bit. -/
theorem decompressY_eq_of_root (C : Curve) (hp : Nat.Prime C.p)
    (hodd : C.p % 2 = 1) (x y t : Nat) (hy : y < C.p)
    (hroot : (y * y) % C.p = (x * x * x + C.a * x + C.b) % C.p)
    (hpar : y % 2 = t) :
    decompressY C x t = some y := by
  unfold decompressY
  cases hfind : (List.range C.p).find?
      (fun z => (z * z) % C.p = (x * x * x + C.a * x + C.b) % C.p &&
        z % 2 = t) with
  | none =>
    exfalso
    have := List.find?_eq_none.mp hfind y (List.mem_range.mpr hy)
    simp [hroot, hpar] at this
  | some z =>
    have hzpred := List.find?_some hfind
    have hzlt : z < C.p := List.mem_range.mp (List.mem_of_find?_eq_some hfind)
    simp only [Bool.and_eq_true, decide_eq_true_eq] at hzpred
    obtain ⟨hzroot, hzpar⟩ := hzpred
    have hzz : z * z % C.p = y * y % C.p := by rw [hzroot, hroot]
    rcases sq_mod_eq_cases C.p hp z y hzlt hy hzz with heq | hsum
    · rw [heq]
    · exfalso; omega

/-- Helper: structural reduction of decoding an uncompressed (tag `0x04`)
encoding of width-bounded coordinates. -/
theorem from_encoded_point_uncompressed (C : Curve) (x y : Nat)
    (hx : x < 256 ^ C.N) (hy : y < 256 ^ C.N) :
    AffinePoint.from_encoded_point C
        (0x04 :: (natToBytes C.N x ++ natToBytes C.N y)) =
      if x < C.p ∧ y < C.p ∧ onCurve C x y then some (.affine x y)
      else none := by
  have hlen : (natToBytes C.N x ++ natToBytes C.N y).length = 2 * C.N := by
    simp [natToBytes_length]
    omega
  unfold AffinePoint.from_encoded_point
  simp only [hlen, List.take_left' (natToBytes_length C.N x),
    List.drop_left' (natToBytes_length C.N x),
    bytesToNat_natToBytes _ _ hx, bytesToNat_natToBytes _ _ hy]
  norm_num

/-- Helper: structural reduction of decoding a compressed (tag `0x02` or
`0x03`) encoding of a width-bounded abscissa. -/
theorem from_encoded_point_compressed (C : Curve) (x t : Nat)
    (hx : x < 256 ^ C.N) (ht : t = 0x02 ∨ t = 0x03) :
    AffinePoint.from_encoded_point C (t :: natToBytes C.N x) =
      if x < C.p then
        match decompressY C x (t % 2) with
        | some y => some (.affine x y)
        | none => none
      else none := by
  rcases ht with rfl | rfl <;>
    (unfold AffinePoint.from_encoded_point
     simp [natToBytes_length, bytesToNat_natToBytes _ _ hx])

/-- C2: for every valid affine point (identity or on-curve with reduced
coordinates) and either compression choice, encoding then decoding at the
public-key level recovers the same key, for a curve over an odd prime
field whose elements fit in `N` bytes. -/
theorem encode_then_decode_roundtrip (C : Curve) (hp : Nat.Prime C.p)
    (hodd : C.p % 2 = 1) (hN : C.p ≤ 256 ^ C.N) (k : PublicKey)
    (hvalid : k.point.valid C) (compress : Bool) :
    PublicKey.from_encoded_point C
        (PublicKey.to_encoded_point C k compress) = some k := by
  obtain ⟨pt⟩ := k
  cases pt with
  | identity => cases compress <;> rfl
  | affine x y =>
    obtain ⟨hx, hy, hcurve⟩ := hvalid
    have hcurve' : (y * y) % C.p = (x * x * x + C.a * x + C.b) % C.p := by
      simpa [onCurve] using hcurve
    have hx256 : x < 256 ^ C.N := lt_of_lt_of_le hx hN
    have hy256 : y < 256 ^ C.N := lt_of_lt_of_le hy hN
    cases compress with
    | false =>
      have henc : PublicKey.to_encoded_point C { point := .affine x y } false
          = 0x04 :: (natToBytes C.N x ++ natToBytes C.N y) := rfl
      unfold PublicKey.from_encoded_point
      rw [henc, from_encoded_point_uncompressed C x y hx256 hy256]
      simp [hx, hy, hcurve]
    | true =>
      have henc : PublicKey.to_encoded_point C { point := .affine x y } true
          = (0x02 + y % 2) :: natToBytes C.N x := rfl
      unfold PublicKey.from_encoded_point
      have hroot := decompressY_eq_of_root C hp hodd x y ((0x02 + y % 2) % 2)
        hy hcurve' (by omega)
      rw [henc, from_encoded_point_compressed C x (0x02 + y % 2) hx256 (by omega),
        hroot]
      simp [hx]

/-- Witness for C2 on the toy curve at the point `(1, 5)`. -/
theorem encode_then_decode_roundtrip_witness :
    PublicKey.from_encoded_point toyCurve
        (PublicKey.to_encoded_point toyCurve { point := .affine 1 5 } true) =
      some { point := .affine 1 5 } :=
  encode_then_decode_roundtrip toyCurve (by show Nat.Prime 23; norm_num) (by decide) (by decide)
    { point := .affine 1 5 } ⟨by decide, by decide, by decide⟩ true

/-- C4: when the curve cubic at `x` has the two square roots `y` and
`p - y`, the compressed tag `0x02` always decodes to the even-parity root
and `0x03` to the odd-parity root. -/
theorem compressed_tag_selects_parity (C : Curve) (hp : Nat.Prime C.p)
    (hodd : C.p % 2 = 1) (hN : C.p ≤ 256 ^ C.N) (x y : Nat)
    (hx : x < C.p) (hy : y < C.p) (hy0 : 0 < y)
    (hroot : (y * y) % C.p = (x * x * x + C.a * x + C.b) % C.p) :
    AffinePoint.from_encoded_point C (0x02 :: natToBytes C.N x) =
      some (.affine x (if y % 2 = 0 then y else C.p - y)) ∧
    AffinePoint.from_encoded_point C (0x03 :: natToBytes C.N x) =
      some (.affine x (if y % 2 = 1 then y else C.p - y)) ∧
    (if y % 2 = 0 then y else C.p - y) % 2 = 0 ∧
    (if y % 2 = 1 then y else C.p - y) % 2 = 1 := by
  have hx256 : x < 256 ^ C.N := lt_of_lt_of_le hx hN
  have hnegroot : ((C.p - y) * (C.p - y)) % C.p =
      (x * x * x + C.a * x + C.b) % C.p := by
    rw [neg_root_sq_mod C.p y (le_of_lt hy)]
    exact hroot
  have hyElt : (if y % 2 = 0 then y else C.p - y) < C.p := by
    split <;> omega
  have hyOlt : (if y % 2 = 1 then y else C.p - y) < C.p := by
    split <;> omega
  have hyEpar : (if y % 2 = 0 then y else C.p - y) % 2 = 0 := by
    split <;> omega
  have hyOpar : (if y % 2 = 1 then y else C.p - y) % 2 = 1 := by
    split <;> omega
  have hyEroot : ((if y % 2 = 0 then y else C.p - y) *
      (if y % 2 = 0 then y else C.p - y)) % C.p =
      (x * x * x + C.a * x + C.b) % C.p := by
    split
    · exact hroot
    · exact hnegroot
  have hyOroot : ((if y % 2 = 1 then y else C.p - y) *
      (if y % 2 = 1 then y else C.p - y)) % C.p =
      (x * x * x + C.a * x + C.b) % C.p := by
    split
    · exact hroot
    · exact hnegroot
  refine ⟨?_, ?_, hyEpar, hyOpar⟩
  · rw [from_encoded_point_compressed C x 0x02 hx256 (Or.inl rfl),
      decompressY_eq_of_root C hp hodd x _ (0x02 % 2) hyElt hyEroot (by omega)]
    simp [hx]
  · rw [from_encoded_point_compressed C x 0x03 hx256 (Or.inr rfl),
      decompressY_eq_of_root C hp hodd x _ (0x03 % 2) hyOlt hyOroot (by omega)]
    simp [hx]

/-- Witness for C4 on the toy curve: `x = 1` has roots `5` and `18`
modulo `23`; tag `0x02` yields `(1, 18)` and tag `0x03` yields `(1, 5)`. -/
theorem compressed_tag_selects_parity_witness :
    AffinePoint.from_encoded_point toyCurve [0x02, 0x01] =
      some (.affine 1 18) ∧
    AffinePoint.from_encoded_point toyCurve [0x03, 0x01] =
      some (.affine 1 5) :=
  ⟨(compressed_tag_selects_parity toyCurve (by show Nat.Prime 23; norm_num) (by decide)
      (by decide) 1 5 (by decide) (by decide) (by decide) (by decide)).1,
   (compressed_tag_selects_parity toyCurve (by show Nat.Prime 23; norm_num) (by decide)
      (by decide) 1 5 (by decide) (by decide) (by decide) (by decide)).2.1⟩
